import Mathlib

/-!
Verification of the transcription post-processing pipeline core:
timestamp reinjection, batch entry building and merging, and
statistical degradation detection.

Python strings are modelled as `List Char` (`PyStr`), rational numbers
stand in for IEEE floats (all arithmetic in the analysed code stays
exact on the inputs the claims quantify over), and the S3 storage
collaborator is modelled as an explicit read map plus a put-success
oracle recording the writes that were performed.
-/

set_option maxHeartbeats 1000000

/-- Python strings, modelled as lists of characters. -/
abbrev PyStr := List Char

/-- Shorthand turning a Lean string literal into the `PyStr` model. -/
def strOf (s : String) : PyStr := s.toList

/-- Whitespace characters recognised by Python's str.strip and the regex
class backslash-s (ASCII range). -/
def isPySpace (c : Char) : Bool :=
  c = ' ' || c = '\t' || c = '\n' || c = '\r' || c = '\x0b' || c = '\x0c'

/-- Python str.strip: drop leading and trailing whitespace. -/
def pyStrip (s : PyStr) : PyStr :=
  (((s.dropWhile isPySpace).reverse).dropWhile isPySpace).reverse

/-- Python str.split(sep) for a single-character separator, generalised to a
character predicate: cuts at every separator character, keeping empty pieces.
The result is always non-empty. -/
def splitOnPred (p : Char → Bool) : List Char → List (List Char)
  | [] => [[]]
  | c :: cs =>
    match splitOnPred p cs with
    | [] => cond (p c) [[], []] [[c]]
    | h :: t => cond (p c) ([] :: h :: t) ((c :: h) :: t)

/-- Python str.split for the newline character. -/
def pySplitNl (s : PyStr) : List PyStr := splitOnPred (fun c => c = '\n') s

/-- Python sep.join(pieces): interleave the separator between the pieces. -/
def joinSep (sep : PyStr) : List PyStr → PyStr
  | [] => []
  | [x] => x
  | x :: y :: t => x ++ sep ++ joinSep sep (y :: t)

/-- Python newline.join. -/
def joinNl (pieces : List PyStr) : PyStr := joinSep ['\n'] pieces

/-- Python str.split() with no argument: maximal runs of non-whitespace. -/
def pySplitWs (s : PyStr) : List PyStr :=
  (splitOnPred isPySpace s).filter (fun l => l ≠ [])

/-! ### The timed-line grammar

Both `TIMED_LINE_PATTERN` in batch_result_processor.py / transcription_fixer.py
and the cue pattern in vtt_converter.py use the same line grammar
  bracket digits bracket ws+ HH:MM:SS.mmm ws+ dash ws+ HH:MM:SS.mmm colon ws* rest.
The parser below returns every captured piece; because the digit runs and
whitespace runs are maximal and the separator characters are outside those
classes, the backtracking regex match is equivalent to this greedy parse. -/

/-- Pieces captured by a successful match of the timed-line pattern. -/
structure TimedLineParts where
  num : List Char
  ws1 : List Char
  t1 : List Char
  ws2 : List Char
  ws3 : List Char
  t2 : List Char
  ws4 : List Char
  rest : List Char
  deriving DecidableEq, Repr

/-- Parse a two-digit colon two-digit colon two-digit dot three-digit
timestamp, returning its twelve characters and the remainder. -/
def timedStampParse : List Char → Option (List Char × List Char)
  | a :: b :: ':' :: c :: d :: ':' :: e :: f :: '.' :: g :: h :: i :: rest =>
    if ([a, b, c, d, e, f, g, h, i].all Char.isDigit) then
      some ([a, b, ':', c, d, ':', e, f, '.', g, h, i], rest)
    else
      none
  | _ => none

/-- Consume one expected literal character. -/
def expectChar (c : Char) : List Char → Option (List Char)
  | x :: xs => if x = c then some xs else none
  | [] => none

/-- Consume a non-empty maximal whitespace run (the regex backslash-s plus). -/
def takeWsPlus (cs : List Char) : Option (List Char × List Char) :=
  let ws := cs.takeWhile isPySpace
  if ws = [] then none else some (ws, cs.drop ws.length)

/-- Consume a non-empty maximal digit run (the regex backslash-d plus). -/
def takeDigitsPlus (cs : List Char) : Option (List Char × List Char) :=
  let ds := cs.takeWhile Char.isDigit
  if ds = [] then none else some (ds, cs.drop ds.length)

/-- Match the timed-line pattern against a (newline-free) line. -/
def timedLineParse (cs : List Char) : Option TimedLineParts := do
  let cs1 ← expectChar '[' cs
  let (num, cs1a) ← takeDigitsPlus cs1
  let cs2 ← expectChar ']' cs1a
  let (ws1, cs2a) ← takeWsPlus cs2
  let (t1, cs3) ← timedStampParse cs2a
  let (ws2, cs3a) ← takeWsPlus cs3
  let cs4 ← expectChar '-' cs3a
  let (ws3, cs4a) ← takeWsPlus cs4
  let (t2, cs5) ← timedStampParse cs4a
  let cs6 ← expectChar ':' cs5
  let ws4 := cs6.takeWhile isPySpace
  pure ⟨num, ws1, t1, ws2, ws3, t2, ws4, cs6.drop ws4.length⟩

/-- Group 1 of `TIMED_LINE_PATTERN`: everything up to and including the
whitespace after the closing colon. -/
def timedGroupOne (p : TimedLineParts) : List Char :=
  '[' :: p.num ++ ']' :: p.ws1 ++ p.t1 ++ p.ws2 ++ '-' :: p.ws3 ++ p.t2 ++ ':' :: p.ws4

/-! ### Timestamp reinjection (inject_timestamps) -/

/-- Non-empty stripped lines of a text, exactly as the list comprehension
  line.strip() for line in text.strip().split(newline) if line.strip()
computes them. -/
def procLines (s : PyStr) : List PyStr :=
  ((pySplitNl (pyStrip s)).map pyStrip).filter (fun l => l ≠ [])

/-- Line produced for one fixed/timed line pair: the timestamp portion of the
timed line prepended to the fixed line, or the bare fixed line when the timed
line does not match the grammar. -/
def injectLine (fixed timed : PyStr) : PyStr :=
  match timedLineParse timed with
  | some p => timedGroupOne p ++ fixed
  | none => fixed

/-- Model of inject_timestamps from batch_result_processor.py (the copy in
transcription_fixer.py is identical): pair the non-empty stripped lines of
both texts positionally, or return none on a line-count mismatch. -/
def inject_timestamps (fixed_text timed_content : PyStr) : Option PyStr :=
  let fixed_lines := procLines fixed_text
  let timed_lines := procLines timed_content
  if fixed_lines.length = timed_lines.length then
    some (joinNl (List.zipWith injectLine fixed_lines timed_lines))
  else
    none

/-- C1: inject_timestamps returns none exactly when the non-empty trimmed
line counts of fixed_text and timed_content differ; when they agree it
returns the newline-join of that many lines, the i-th being the i-th timed
line's timestamp portion prepended to the i-th fixed line, or the bare
fixed line when the timed line does not match the timed-line grammar. -/
theorem C1_inject_timestamps_all_or_nothing (fixed_text timed_content : PyStr) :
    ((procLines fixed_text).length ≠ (procLines timed_content).length →
      inject_timestamps fixed_text timed_content = none) ∧
    ((procLines fixed_text).length = (procLines timed_content).length →
      ∃ ls : List PyStr,
        inject_timestamps fixed_text timed_content = some (joinNl ls) ∧
        ls.length = (procLines timed_content).length ∧
        ∀ i, i < (procLines timed_content).length →
          ls.getD i [] =
            match timedLineParse ((procLines timed_content).getD i []) with
            | some p => timedGroupOne p ++ (procLines fixed_text).getD i []
            | none => (procLines fixed_text).getD i []) := by
  constructor
  · intro h
    simp only [inject_timestamps]
    rw [if_neg h]
  · intro h
    refine ⟨List.zipWith injectLine (procLines fixed_text) (procLines timed_content),
      ?_, ?_, ?_⟩
    · simp only [inject_timestamps]
      rw [if_pos h]
    · simp [h]
    · intro i hi
      have hf : i < (procLines fixed_text).length := by omega
      have hz : i < (List.zipWith injectLine (procLines fixed_text)
          (procLines timed_content)).length := by
        simp [h]; omega
      rw [List.getD_eq_getElem _ _ hz, List.getD_eq_getElem _ _ hi,
        List.getD_eq_getElem _ _ hf, List.getElem_zipWith]
      rfl

/-- C1 witness: the spec's worked example, two matching lines and a
one-line corrected text. -/
theorem C1_witness :
    ((procLines (strOf "HELLO\nWORLD")).length =
      (procLines (strOf "[1] 00:00:00.000 - 00:00:02.000: hello\n[2] 00:00:02.000 - 00:00:04.000: world")).length) ∧
    (∃ ls : List PyStr,
        inject_timestamps (strOf "HELLO\nWORLD")
          (strOf "[1] 00:00:00.000 - 00:00:02.000: hello\n[2] 00:00:02.000 - 00:00:04.000: world") =
          some (joinNl ls) ∧
        ls.length = (procLines (strOf "[1] 00:00:00.000 - 00:00:02.000: hello\n[2] 00:00:02.000 - 00:00:04.000: world")).length ∧
        ∀ i, i < (procLines (strOf "[1] 00:00:00.000 - 00:00:02.000: hello\n[2] 00:00:02.000 - 00:00:04.000: world")).length →
          ls.getD i [] =
            match timedLineParse ((procLines (strOf "[1] 00:00:00.000 - 00:00:02.000: hello\n[2] 00:00:02.000 - 00:00:04.000: world")).getD i []) with
            | some p => timedGroupOne p ++ (procLines (strOf "HELLO\nWORLD")).getD i []
            | none => (procLines (strOf "HELLO\nWORLD")).getD i []) :=
  ⟨by decide,
    (C1_inject_timestamps_all_or_nothing (strOf "HELLO\nWORLD")
      (strOf "[1] 00:00:00.000 - 00:00:02.000: hello\n[2] 00:00:02.000 - 00:00:04.000: world")).2
      (by decide)⟩

/-! ### Split-record grouping (group_split_records) -/

/-- One record of Bedrock batch output, as in post_inference schemas. -/
structure BatchOutputRecord where
  record_id : PyStr
  fixed_text : PyStr
  deriving DecidableEq, Repr

/-- Python regex dollar also matches just before one trailing newline. -/
def stripOneTrailingNl (cs : PyStr) : PyStr :=
  if cs.getLast? = some '\n' then cs.dropLast else cs

/-- Model of SPLIT_PATTERN, the anchored regex base-group underscore
digit-group: the digit group must be a non-empty all-digit suffix, the
character before it an underscore, and the (greedy, hence unique) base
non-empty and newline-free. Returns (base, digits) on a match. -/
def splitMatch (cs : PyStr) : Option (PyStr × PyStr) :=
  let cs2 := stripOneTrailingNl cs
  let r := cs2.reverse
  let ds := r.takeWhile Char.isDigit
  if ds = [] then none
  else
    match r.drop ds.length with
    | c :: restR =>
      if c = '_' then
        if restR.reverse = [] ∨ '\n' ∈ restR.reverse then none
        else some (restR.reverse, ds.reverse)
      else none
    | [] => none

/-- Numeric value of a decimal digit string, as Python int() computes it. -/
def digitsVal (ds : PyStr) : ℕ := ds.foldl (fun a c => a * 10 + (c.toNat - 48)) 0

/-- Ordering used by the Python chunks.sort(key by first component). -/
def chunkLe (a b : ℕ × PyStr) : Prop := a.1 ≤ b.1

instance : DecidableRel chunkLe := fun a b => Nat.decLe a.1 b.1

/-- Insertion-order-preserving defaultdict update: append the value to an
existing key's list, or add a new key at the end. -/
def upsertGroup (gs : List (PyStr × List (ℕ × PyStr))) (k : PyStr) (v : ℕ × PyStr) :
    List (PyStr × List (ℕ × PyStr)) :=
  match gs with
  | [] => [(k, [v])]
  | (k2, vs) :: t => if k2 = k then (k2, vs ++ [v]) :: t else (k2, vs) :: upsertGroup t k v

/-- Grouping key and (sort key, text) payload of one record. -/
def groupKeyVal (r : BatchOutputRecord) : PyStr × (ℕ × PyStr) :=
  match splitMatch r.record_id with
  | some (base, ds) => (base, (digitsVal ds, r.fixed_text))
  | none => (r.record_id, (0, r.fixed_text))

/-- Model of group_split_records from batch_result_processor.py: group by
base stem (split-suffix aware), stably sort each group by chunk index, and
newline-join the texts. The output mapping is the insertion-ordered
association list the Python dict holds. -/
def group_split_records (records : List BatchOutputRecord) : List (PyStr × PyStr) :=
  let groups := records.foldl
    (fun gs r => upsertGroup gs (groupKeyVal r).1 (groupKeyVal r).2) []
  groups.map (fun g => (g.1, joinNl ((List.insertionSort chunkLe g.2).map Prod.snd)))

/-! ### Batch entry building (batch_jsonl.py) -/

/-- Fuel-driven decimal rendering helper; the fuel always suffices when it
exceeds the number. -/
def natDigitsAux : ℕ → ℕ → PyStr
  | _, 0 => []
  | n, fuel + 1 =>
    if n < 10 then [Char.ofNat (48 + n)]
    else natDigitsAux (n / 10) fuel ++ [Char.ofNat (48 + n % 10)]

/-- Decimal rendering of a natural number, as a Python f-string writes it. -/
def natDigits (n : ℕ) : PyStr := natDigitsAux n (n + 1)

/-- Transcription file record handed to the batch builder. -/
structure TranscriptionFile where
  stem : PyStr
  content : PyStr
  system_prompt : PyStr
  line_count : ℕ
  word_count : ℕ

/-- One entry of the batch JSONL. -/
structure BatchEntry where
  record_id : PyStr
  system_prompt : PyStr
  content : PyStr
  token_count : ℤ
  deriving DecidableEq, Repr

/-- Accumulation loop of _split_content_by_tokens at the line level: the
current chunk's lines and its running proportional estimate are carried,
a chunk closes when the next line's estimate would overflow the cap and
the chunk is non-empty. -/
def splitChunksGo (tpl maxT : ℚ) : List PyStr → List PyStr → ℚ → List (List PyStr × ℚ)
  | [], cur, est => if cur = [] then [] else [(cur, est)]
  | l :: rest, cur, est =>
    if est + tpl > maxT ∧ cur ≠ [] then
      (cur, est) :: splitChunksGo tpl maxT rest [l] tpl
    else
      splitChunksGo tpl maxT rest (cur ++ [l]) (est + tpl)

/-- Line-level chunk partition produced by _split_content_by_tokens in its
splitting branch. -/
def splitChunkLists (content : PyStr) (total_tokens max_tokens : ℕ) :
    List (List PyStr × ℚ) :=
  let lines := pySplitNl (pyStrip content)
  let tpl : ℚ := (total_tokens : ℚ) / (lines.length : ℚ)
  splitChunksGo tpl (max_tokens : ℚ) lines [] 0

/-- Model of _split_content_by_tokens from batch_jsonl.py. -/
def split_content_by_tokens (content : PyStr) (total_tokens max_tokens : ℕ) :
    List (PyStr × ℤ) :=
  let lines := pySplitNl (pyStrip content)
  if lines.length = 0 then [(pyStrip content, (total_tokens : ℤ))]
  else if total_tokens ≤ max_tokens then [(pyStrip content, (total_tokens : ℤ))]
  else (splitChunkLists content total_tokens max_tokens).map
    (fun c => (joinNl c.1, ⌊c.2⌋))

/-- Model of _create_dummy_entry from batch_jsonl.py. -/
def create_dummy_entry (index : ℕ) : BatchEntry :=
  ⟨strOf "dummy_" ++ natDigits index, strOf "ok", strOf "ok", 2⟩

/-- Entries emitted for one file: its chunks, one-based enumerated, with the
bare stem when there is a single chunk. -/
def entriesForFile (tc : PyStr → ℕ) (max_tokens : ℕ) (f : TranscriptionFile) :
    List BatchEntry :=
  let total_tokens := tc f.content
  let chunks := split_content_by_tokens f.content total_tokens max_tokens
  (chunks.enumFrom 1).map (fun ic =>
    ⟨if chunks.length = 1 then f.stem else f.stem ++ '_' :: natDigits ic.1,
      f.system_prompt, ic.2.1, ic.2.2⟩)

/-- Model of prepare_batch_entries from batch_jsonl.py, with the
environment-configured MIN_ENTRIES and MAX_TOKENS as parameters
(defaults 100 and 60000). -/
def prepare_batch_entries (files : List TranscriptionFile) (tc : PyStr → ℕ)
    (min_entries max_tokens : ℕ) : List BatchEntry :=
  let entries := files.flatMap (entriesForFile tc max_tokens)
  entries ++ (List.range' entries.length (min_entries - entries.length)).map create_dummy_entry

/-! ### Alignment quality analysis (alignment_evaluator.py) -/

/-- Records handed back for one file, as the claim constructs them: the
file's own record ids, each carrying its chunk text as fixed_text. -/
def recordsForFile (tc : PyStr → ℕ) (max_tokens : ℕ) (f : TranscriptionFile) :
    List BatchOutputRecord :=
  (entriesForFile tc max_tokens f).map (fun e => ⟨e.record_id, e.content⟩)

/-- Arithmetic mean, the model of numpy mean on a non-empty slice. -/
def mean (l : List ℚ) : ℚ := l.sum / (l.length : ℚ)

/-- Python slice l[a:b] for natural bounds. -/
def pySlice (l : List ℚ) (a b : ℕ) : List ℚ := (l.drop a).take (b - a)

/-- Model of _compute_moving_average: entry i is the mean of
probs[max(0, i-window+1) : i+1] (natural subtraction is that max). -/
def compute_moving_average (probs : List ℚ) (window : ℕ) : List ℚ :=
  (List.range probs.length).map (fun i => mean (pySlice probs (i + 1 - window) (i + 1)))

/-- First index i in [start, start+count) satisfying p, as an integer,
or -1 when none does; the shape of the detector scan loops. -/
def findIdxFrom (p : ℕ → Bool) : ℕ → ℕ → ℤ
  | _, 0 => -1
  | i, n + 1 => if p i then (i : ℤ) else findIdxFrom p (i + 1) n

/-- Model of detect_degradation_rolling_avg. -/
def detect_degradation_rolling_avg (probs : List ℚ) (window : ℕ := 100)
    (threshold_pct : ℚ := 1 / 2) : ℤ :=
  if probs.length < window * 3 then -1
  else
    let moving_avg := compute_moving_average probs window
    let baseline := mean (pySlice moving_avg window (window * 3))
    let threshold := baseline * threshold_pct
    findIdxFrom (fun i => decide (moving_avg.getD i 0 < threshold)) window
      (moving_avg.length - window)

/-- CUSUM scan loop: state c is the running one-sided negative sum, i the
current index, the last argument the remaining iteration count. -/
def cusumGo (g : ℕ → ℚ) (threshold : ℚ) : ℕ → ℚ → ℕ → ℤ
  | _, _, 0 => -1
  | i, c, n + 1 =>
    let c2 := min 0 (c + g i)
    if threshold < |c2| then (i : ℤ) else cusumGo g threshold (i + 1) c2 n

/-- Model of detect_degradation_cusum. -/
def detect_degradation_cusum (probs : List ℚ) (window : ℕ := 100)
    (threshold : ℚ := 80) : ℤ :=
  if probs.length < window * 3 then -1
  else
    let moving_avg := compute_moving_average probs window
    let target := mean (pySlice moving_avg window (window * 3))
    cusumGo (fun i => moving_avg.getD i 0 - target) threshold window 0
      (moving_avg.length - window)

/-- One-sided negative CUSUM sequence the claim describes: entry k is the
running value after processing index start + k, beginning from c0. -/
def cusumStream (g : ℕ → ℚ) (start : ℕ) (c0 : ℚ) : ℕ → ℚ
  | 0 => min 0 (c0 + g start)
  | k + 1 => min 0 (cusumStream g start c0 k + g (start + k + 1))

/-- Word datum extracted from the stable_whisper JSON. -/
structure StableWord where
  word : PyStr
  start_time : Option ℚ
  end_time : Option ℚ
  probability : Option ℚ
  deriving DecidableEq, Repr

/-- Sort key used by evaluate_alignment: start_time, with null as 0. -/
def wordKey (w : StableWord) : ℚ := w.start_time.getD 0

/-- Comparison the Python stable sort uses on words. -/
def wordLe (a b : StableWord) : Prop := wordKey a ≤ wordKey b

instance : DecidableRel wordLe :=
  fun a b => inferInstanceAs (Decidable (wordKey a ≤ wordKey b))

/-- Probability series evaluate_alignment analyses: sort by start time
(stable), then keep the non-null probabilities in order. -/
def seriesOf (words : List StableWord) : List ℚ :=
  (List.insertionSort wordLe words).filterMap (fun w => w.probability)

/-- Analysis result returned when both methods detect degradation. -/
structure DegradationReport where
  rolling_avg_method : ℤ
  cusum_method : ℤ
  deriving DecidableEq, Repr

/-- Body of evaluate_alignment after word extraction: empty-word and
insufficient-data guards, both detectors at their default parameters, and
the conjunctive decision rule. -/
def evaluate_alignment_core (words : List StableWord) : Option DegradationReport :=
  if words = [] then none
  else
    let probs := seriesOf words
    if probs.length < 300 then none
    else
      let rolling_avg_index := detect_degradation_rolling_avg probs 100 (1 / 2)
      let cusum_index := detect_degradation_cusum probs 100 80
      if rolling_avg_index ≠ -1 ∧ cusum_index ≠ -1 then
        some ⟨rolling_avg_index, cusum_index⟩
      else none

/-- Model of evaluate_alignment with its surrounding try/except: the file
read and JSON extraction either fail with an exception (mapped to none by
the handler) or produce the word list the body analyses. -/
def evaluate_alignment (input : Except PyStr (List StableWord)) :
    Option DegradationReport :=
  match input with
  | Except.error _ => none
  | Except.ok words => evaluate_alignment_core words

/-! ### Cue-block truncation (truncate_vtt_file / truncate_srt_file) -/

/-- Python str.split on the two-character separator newline-newline,
leftmost non-overlapping. -/
def splitNlNl : List Char → List (List Char)
  | [] => [[]]
  | '\n' :: '\n' :: cs => [] :: splitNlNl cs
  | c :: cs =>
    match splitNlNl cs with
    | [] => [[c]]
    | h :: t => (c :: h) :: t

/-- Spoken-word count of one cue block, whose text starts at line textFrom. -/
def cueWordCount (seg : List Char) (textFrom : ℕ) : ℕ :=
  let lines := pySplitNl seg
  let text := joinSep (strOf " ") (lines.drop textFrom)
  (pySplitWs text).length

/-- Keep cue blocks while the cumulative word count stays strictly below
word_index; stop at the block that would reach or exceed it. -/
def truncateSegsGo (textFrom : ℕ) (word_index : ℤ) :
    List (List Char) → ℕ → List (List Char)
  | [], _ => []
  | seg :: rest, cum =>
    let wc := cueWordCount seg textFrom
    if (((cum + wc : ℕ) : ℤ) ≥ word_index) then []
    else seg :: truncateSegsGo textFrom word_index rest (cum + wc)

/-- Model of truncate_vtt_file as a content transformation: the WEBVTT
header block is kept unconditionally, cue text starts on each block's
second line. -/
def truncate_vtt_content (content : PyStr) (word_index : ℤ) : PyStr :=
  let parts := splitNlNl (pyStrip content)
  joinSep (strOf "\n\n") (parts.headD [] :: truncateSegsGo 1 word_index parts.tail 0)
    ++ strOf "\n"

/-- Model of truncate_srt_file as a content transformation: no header
block, cue text starts on each block's third line. -/
def truncate_srt_content (content : PyStr) (word_index : ℤ) : PyStr :=
  joinSep (strOf "\n\n") (truncateSegsGo 2 word_index (splitNlNl (pyStrip content)) 0)
    ++ strOf "\n"

/-- Post-analysis step of test_align_local_files in aligner.py, as a pure
function on the artifact contents: when an analysis result is present
(the dict is non-empty, hence truthy) both subtitle artifacts are
truncated at its cusum_method index, otherwise they are left unchanged. -/
def apply_analysis_truncation (analysis : Option DegradationReport)
    (vtt srt : PyStr) : PyStr × PyStr :=
  match analysis with
  | some r => (truncate_vtt_content vtt r.cusum_method,
      truncate_srt_content srt r.cusum_method)
  | none => (vtt, srt)

/-! ### Batch result processing (BatchResultProcessor.process_record) -/

/-- Model of convert_to_vtt from vtt_converter.py: matching timed lines
become cue blocks, non-matching lines are dropped. -/
def convert_to_vtt (content : PyStr) : PyStr :=
  let lines := pySplitNl (pyStrip content)
  let vtt_lines := lines.foldl
    (fun acc line =>
      let l := pyStrip line
      if l = [] then acc
      else
        match timedLineParse l with
        | some p => acc ++ [p.num, p.t1 ++ strOf " --> " ++ p.t2, p.rest, []]
        | none => acc)
    [strOf "WEBVTT", []]
  joinNl vtt_lines

/-- Storage collaborator: a read map for get_object_content and an oracle
saying which puts succeed. -/
structure S3Client where
  contents : PyStr → PyStr → Option PyStr
  putOk : PyStr → PyStr → Bool

/-- One performed upload: bucket, key, content. -/
abbrev S3Put := PyStr × PyStr × PyStr

/-- Model of BatchResultProcessor.process_record: returns the success flag
and the list of uploads performed, in order. The Python truthiness tests
are preserved: an empty .time read fails, and an empty injection result
takes the fallback branch. -/
def process_record (s3 : S3Client)
    (stem fixed_text transcription_bucket output_bucket : PyStr) :
    Bool × List S3Put :=
  match s3.contents transcription_bucket (stem ++ strOf ".time") with
  | none => (false, [])
  | some timed_content =>
    if timed_content = [] then (false, [])
    else
      let timed_result := inject_timestamps fixed_text timed_content
      let txt_key := stem ++ strOf ".txt"
      if s3.putOk output_bucket txt_key = false then (false, [])
      else
        let puts1 : List S3Put := [(output_bucket, txt_key, fixed_text)]
        let uploadVtt := fun (vtt_content : PyStr) (puts : List S3Put) =>
          let vtt_key := stem ++ strOf ".vtt"
          if s3.putOk output_bucket vtt_key = false then (false, puts)
          else (true, puts ++ [(output_bucket, vtt_key, vtt_content)])
        let fallback :=
          let vtt_content := convert_to_vtt timed_content
          let nt_key := stem ++ strOf ".no_timing.txt"
          if s3.putOk output_bucket nt_key = false then (false, puts1)
          else uploadVtt vtt_content (puts1 ++ [(output_bucket, nt_key, fixed_text)])
        match timed_result with
        | some inj => if inj = [] then fallback else uploadVtt (convert_to_vtt inj) puts1
        | none => fallback

/-! ### Characterization of the scan loops -/

/-- Complete characterization of findIdxFrom: either no index in the
scanned range satisfies p and the result is -1, or the result is the least
index in the range satisfying p. -/
theorem findIdxFrom_spec (p : ℕ → Bool) (start n : ℕ) :
    (findIdxFrom p start n = -1 ∧ ∀ j, start ≤ j → j < start + n → p j = false) ∨
    (∃ k : ℕ, findIdxFrom p start n = (k : ℤ) ∧ start ≤ k ∧ k < start + n ∧
      p k = true ∧ ∀ j, start ≤ j → j < k → p j = false) := by
  induction n generalizing start with
  | zero =>
    left
    exact ⟨rfl, fun j h1 h2 => by omega⟩
  | succ n ih =>
    by_cases h : p start = true
    · right
      exact ⟨start, by simp [findIdxFrom, h], Nat.le_refl _, by omega, h,
        fun j h1 h2 => by omega⟩
    · have hps : p start = false := by
        revert h; cases p start <;> simp
      rcases ih (start + 1) with ⟨heq, hall⟩ | ⟨k, heq, h1, h2, h3, hmin⟩
      · left
        refine ⟨by simp [findIdxFrom, hps, heq], ?_⟩
        intro j hj1 hj2
        rcases Nat.eq_or_lt_of_le hj1 with rfl | hlt
        · exact hps
        · exact hall j hlt (by omega)
      · right
        refine ⟨k, by simp [findIdxFrom, hps, heq], by omega, by omega, h3, ?_⟩
        intro j hj1 hj2
        rcases Nat.eq_or_lt_of_le hj1 with rfl | hlt
        · exact hps
        · exact hmin j hlt hj2

/-- Shifting the CUSUM stream one step: starting at start+1 from the value
after step start reproduces the original stream, one entry later. -/
theorem cusumStream_shift (g : ℕ → ℚ) (start : ℕ) (c0 : ℚ) (k : ℕ) :
    cusumStream g (start + 1) (min 0 (c0 + g start)) k =
      cusumStream g start c0 (k + 1) := by
  induction k with
  | zero => simp [cusumStream]
  | succ k ih =>
    show min 0 (cusumStream g (start + 1) (min 0 (c0 + g start)) k + g (start + 1 + k + 1)) =
      min 0 (cusumStream g start c0 (k + 1) + g (start + (k + 1) + 1))
    rw [ih, show start + 1 + k + 1 = start + (k + 1) + 1 from by omega]

/-- Complete characterization of the CUSUM scan loop: -1 when the running
value never exceeds the threshold in magnitude on the scanned range, else
the index of the first exceedance. -/
theorem cusumGo_spec (g : ℕ → ℚ) (θ : ℚ) (start : ℕ) (c0 : ℚ) (n : ℕ) :
    (cusumGo g θ start c0 n = -1 ∧
      ∀ k, k < n → ¬ θ < |cusumStream g start c0 k|) ∨
    (∃ k, k < n ∧ cusumGo g θ start c0 n = ((start + k : ℕ) : ℤ) ∧
      θ < |cusumStream g start c0 k| ∧
      ∀ j, j < k → ¬ θ < |cusumStream g start c0 j|) := by
  induction n generalizing start c0 with
  | zero =>
    left
    exact ⟨rfl, fun k hk => by omega⟩
  | succ n ih =>
    by_cases h : θ < |min 0 (c0 + g start)|
    · right
      refine ⟨0, by omega, ?_, ?_, ?_⟩
      · simp [cusumGo, h]
      · simpa [cusumStream] using h
      · intro j hj; omega
    · rcases ih (start + 1) (min 0 (c0 + g start)) with ⟨heq, hall⟩ | ⟨k, hk, heq, hex, hmin⟩
      · left
        refine ⟨by simp [cusumGo, h, heq], ?_⟩
        intro k hk
        match k with
        | 0 => simpa [cusumStream] using h
        | k + 1 =>
          have := hall k (by omega)
          rwa [cusumStream_shift] at this
      · right
        refine ⟨k + 1, by omega, ?_, ?_, ?_⟩
        · rw [show start + (k + 1) = (start + 1) + k by omega]
          simp [cusumGo, h, heq]
        · rwa [← cusumStream_shift]
        · intro j hj
          match j with
          | 0 => simpa [cusumStream] using h
          | j + 1 =>
            have := hmin j (by omega)
            rwa [cusumStream_shift] at this

/-- C6: detect_degradation_rolling_avg returns -1 on arrays shorter than
3*window; otherwise each moving-average entry is the mean over
[max(0, i-window+1), i], and the result is the least index i at or after
window whose moving average is strictly below threshold_pct times the
baseline mean of moving_avg[window : 3*window], or -1 when there is none. -/
theorem C6_detect_rolling_avg_spec (probs : List ℚ) (window : ℕ)
    (threshold_pct : ℚ) (_hw : 0 < window) :
    (probs.length < 3 * window →
      detect_degradation_rolling_avg probs window threshold_pct = -1) ∧
    (3 * window ≤ probs.length →
      (compute_moving_average probs window).length = probs.length ∧
      (∀ i, i < probs.length →
        (compute_moving_average probs window).getD i 0 =
          mean (pySlice probs (i + 1 - window) (i + 1))) ∧
      ((detect_degradation_rolling_avg probs window threshold_pct = -1 ∧
        ∀ i, window ≤ i → i < probs.length →
          ¬ (compute_moving_average probs window).getD i 0 <
            mean (pySlice (compute_moving_average probs window) window (3 * window)) *
              threshold_pct) ∨
      (∃ i : ℕ, detect_degradation_rolling_avg probs window threshold_pct = (i : ℤ) ∧
        window ≤ i ∧ i < probs.length ∧
        (compute_moving_average probs window).getD i 0 <
          mean (pySlice (compute_moving_average probs window) window (3 * window)) *
            threshold_pct ∧
        ∀ j, window ≤ j → j < i →
          ¬ (compute_moving_average probs window).getD j 0 <
            mean (pySlice (compute_moving_average probs window) window (3 * window)) *
              threshold_pct))) := by
  have hmal : (compute_moving_average probs window).length = probs.length := by
    simp [compute_moving_average]
  constructor
  · intro h
    simp only [detect_degradation_rolling_avg]
    rw [if_pos (by omega)]
  · intro h
    refine ⟨hmal, ?_, ?_⟩
    · intro i hi
      rw [List.getD_eq_getElem _ _ (by omega)]
      simp [compute_moving_average]
    · have hdef : detect_degradation_rolling_avg probs window threshold_pct =
        findIdxFrom
          (fun i => decide ((compute_moving_average probs window).getD i 0 <
            mean (pySlice (compute_moving_average probs window) window (window * 3)) *
              threshold_pct))
          window ((compute_moving_average probs window).length - window) := by
        simp only [detect_degradation_rolling_avg]
        rw [if_neg (by omega)]
      rcases findIdxFrom_spec
          (fun i => decide ((compute_moving_average probs window).getD i 0 <
            mean (pySlice (compute_moving_average probs window) window (window * 3)) *
              threshold_pct))
          window ((compute_moving_average probs window).length - window) with
        ⟨heq, hall⟩ | ⟨k, heq, h1, h2, h3, hmin⟩
      · left
        refine ⟨by rw [hdef, heq], ?_⟩
        intro i hi1 hi2
        have := hall i hi1 (by omega)
        rw [show window * 3 = 3 * window from by omega] at this
        simpa using this
      · right
        refine ⟨k, by rw [hdef, heq], h1, by omega, ?_, ?_⟩
        · rw [show window * 3 = 3 * window from by omega] at h3
          simpa using h3
        · intro j hj1 hj2
          have := hmin j hj1 hj2
          rw [show window * 3 = 3 * window from by omega] at this
          simpa using this

/-- C6 witness: a five-element series with window 1 where the first
below-threshold moving average sits at index 4. -/
theorem C6_witness :
    (0 : ℕ) < 1 ∧
    (((([1, 1, 1, 1, 0] : List ℚ).length < 3 * 1 →
      detect_degradation_rolling_avg [1, 1, 1, 1, 0] 1 (1 / 2) = -1) ∧
    (3 * 1 ≤ ([1, 1, 1, 1, 0] : List ℚ).length →
      (compute_moving_average [1, 1, 1, 1, 0] 1).length =
        ([1, 1, 1, 1, 0] : List ℚ).length ∧
      (∀ i, i < ([1, 1, 1, 1, 0] : List ℚ).length →
        (compute_moving_average [1, 1, 1, 1, 0] 1).getD i 0 =
          mean (pySlice [1, 1, 1, 1, 0] (i + 1 - 1) (i + 1))) ∧
      ((detect_degradation_rolling_avg [1, 1, 1, 1, 0] 1 (1 / 2) = -1 ∧
        ∀ i, 1 ≤ i → i < ([1, 1, 1, 1, 0] : List ℚ).length →
          ¬ (compute_moving_average [1, 1, 1, 1, 0] 1).getD i 0 <
            mean (pySlice (compute_moving_average [1, 1, 1, 1, 0] 1) 1 (3 * 1)) *
              (1 / 2)) ∨
      (∃ i : ℕ, detect_degradation_rolling_avg [1, 1, 1, 1, 0] 1 (1 / 2) = (i : ℤ) ∧
        1 ≤ i ∧ i < ([1, 1, 1, 1, 0] : List ℚ).length ∧
        (compute_moving_average [1, 1, 1, 1, 0] 1).getD i 0 <
          mean (pySlice (compute_moving_average [1, 1, 1, 1, 0] 1) 1 (3 * 1)) *
            (1 / 2) ∧
        ∀ j, 1 ≤ j → j < i →
          ¬ (compute_moving_average [1, 1, 1, 1, 0] 1).getD j 0 <
            mean (pySlice (compute_moving_average [1, 1, 1, 1, 0] 1) 1 (3 * 1)) *
              (1 / 2)))))) :=
  ⟨by decide, C6_detect_rolling_avg_spec [1, 1, 1, 1, 0] 1 (1 / 2) (by decide)⟩

/-- C7: detect_degradation_cusum returns -1 on arrays shorter than
3*window; otherwise, with target the mean of moving_avg[window : 3*window],
it returns the least index window + k at which the one-sided negative
cumulative sum (cusum := min(0, cusum + (moving_avg[i] - target)), scanned
from index window) exceeds the threshold in magnitude, or -1 when it never
does. -/
theorem C7_detect_cusum_spec (probs : List ℚ) (window : ℕ) (threshold : ℚ)
    (_hw : 0 < window) :
    (probs.length < 3 * window →
      detect_degradation_cusum probs window threshold = -1) ∧
    (3 * window ≤ probs.length →
      ((detect_degradation_cusum probs window threshold = -1 ∧
        ∀ k, k < probs.length - window →
          ¬ threshold < |cusumStream
            (fun i => (compute_moving_average probs window).getD i 0 -
              mean (pySlice (compute_moving_average probs window) window (3 * window)))
            window 0 k|) ∨
      (∃ k : ℕ, k < probs.length - window ∧
        detect_degradation_cusum probs window threshold = ((window + k : ℕ) : ℤ) ∧
        threshold < |cusumStream
          (fun i => (compute_moving_average probs window).getD i 0 -
            mean (pySlice (compute_moving_average probs window) window (3 * window)))
          window 0 k| ∧
        ∀ j, j < k →
          ¬ threshold < |cusumStream
            (fun i => (compute_moving_average probs window).getD i 0 -
              mean (pySlice (compute_moving_average probs window) window (3 * window)))
            window 0 j|))) := by
  have hmal : (compute_moving_average probs window).length = probs.length := by
    simp [compute_moving_average]
  constructor
  · intro h
    simp only [detect_degradation_cusum]
    rw [if_pos (by omega)]
  · intro h
    have hdef : detect_degradation_cusum probs window threshold =
        cusumGo
          (fun i => (compute_moving_average probs window).getD i 0 -
            mean (pySlice (compute_moving_average probs window) window (3 * window)))
          threshold window 0 (probs.length - window) := by
      simp only [detect_degradation_cusum]
      rw [if_neg (by omega)]
      simp only [show window * 3 = 3 * window from Nat.mul_comm window 3, hmal]
    rcases cusumGo_spec
        (fun i => (compute_moving_average probs window).getD i 0 -
          mean (pySlice (compute_moving_average probs window) window (3 * window)))
        threshold window 0 (probs.length - window) with
      ⟨heq, hall⟩ | ⟨k, hk, heq, hex, hmin⟩
    · left
      exact ⟨by rw [hdef, heq], hall⟩
    · right
      exact ⟨k, hk, by rw [hdef, heq], hex, hmin⟩

/-- C7 witness: an eight-element series with window 2 and threshold 1 whose
first CUSUM exceedance is at index 6 = window + 4. -/
theorem C7_witness :
    (0 : ℕ) < 2 ∧
    ((([1, 1, 1, 1, 0, 0, 0, 1 / 4] : List ℚ).length < 3 * 2 →
      detect_degradation_cusum [1, 1, 1, 1, 0, 0, 0, 1 / 4] 2 1 = -1) ∧
    (3 * 2 ≤ ([1, 1, 1, 1, 0, 0, 0, 1 / 4] : List ℚ).length →
      ((detect_degradation_cusum [1, 1, 1, 1, 0, 0, 0, 1 / 4] 2 1 = -1 ∧
        ∀ k, k < ([1, 1, 1, 1, 0, 0, 0, 1 / 4] : List ℚ).length - 2 →
          ¬ (1 : ℚ) < |cusumStream
            (fun i => (compute_moving_average [1, 1, 1, 1, 0, 0, 0, 1 / 4] 2).getD i 0 -
              mean (pySlice (compute_moving_average [1, 1, 1, 1, 0, 0, 0, 1 / 4] 2) 2 (3 * 2)))
            2 0 k|) ∨
      (∃ k : ℕ, k < ([1, 1, 1, 1, 0, 0, 0, 1 / 4] : List ℚ).length - 2 ∧
        detect_degradation_cusum [1, 1, 1, 1, 0, 0, 0, 1 / 4] 2 1 = ((2 + k : ℕ) : ℤ) ∧
        (1 : ℚ) < |cusumStream
          (fun i => (compute_moving_average [1, 1, 1, 1, 0, 0, 0, 1 / 4] 2).getD i 0 -
            mean (pySlice (compute_moving_average [1, 1, 1, 1, 0, 0, 0, 1 / 4] 2) 2 (3 * 2)))
          2 0 k| ∧
        ∀ j, j < k →
          ¬ (1 : ℚ) < |cusumStream
            (fun i => (compute_moving_average [1, 1, 1, 1, 0, 0, 0, 1 / 4] 2).getD i 0 -
              mean (pySlice (compute_moving_average [1, 1, 1, 1, 0, 0, 0, 1 / 4] 2) 2 (3 * 2)))
            2 0 j|)))) :=
  ⟨by decide, C7_detect_cusum_spec [1, 1, 1, 1, 0, 0, 0, 1 / 4] 2 1 (by decide)⟩

/-- Closed form of evaluate_alignment_core: the report exists exactly when
both detectors fire on the sorted, filtered series, and then carries both
indices. -/
theorem evaluate_core_eq (words : List StableWord) :
    evaluate_alignment_core words =
      (if detect_degradation_rolling_avg (seriesOf words) 100 (1 / 2) ≠ -1 ∧
          detect_degradation_cusum (seriesOf words) 100 80 ≠ -1 then
        some ⟨detect_degradation_rolling_avg (seriesOf words) 100 (1 / 2),
          detect_degradation_cusum (seriesOf words) 100 80⟩
      else none) := by
  by_cases hw0 : words = []
  · subst hw0
    have h1 : detect_degradation_rolling_avg (seriesOf ([] : List StableWord)) 100 (1 / 2) = -1 := by
      simp only [detect_degradation_rolling_avg]
      rw [if_pos (by decide)]
    have hL : evaluate_alignment_core [] = none := rfl
    rw [hL, if_neg]
    intro hc
    exact hc.1 h1
  · by_cases hlen : (seriesOf words).length < 300
    · have h1 : detect_degradation_rolling_avg (seriesOf words) 100 (1 / 2) = -1 := by
        simp only [detect_degradation_rolling_avg]
        rw [if_pos (by omega)]
      have hL : evaluate_alignment_core words = none := by
        simp [evaluate_alignment_core, hw0, hlen]
      rw [hL, if_neg]
      intro hc
      exact hc.1 h1
    · simp [evaluate_alignment_core, hw0, hlen]

/-- C2: evaluate_alignment produces a report exactly when both the
rolling-average and the CUSUM detector return an index other than -1 on
the sorted, null-filtered probability series; the report then carries both
indices, and the caller's truncation of the VTT and SRT artifacts uses the
CUSUM index, not the rolling-average index. -/
theorem C2_evaluate_alignment_conjunctive (words : List StableWord) (vtt srt : PyStr) :
    (evaluate_alignment_core words ≠ none ↔
      (detect_degradation_rolling_avg (seriesOf words) 100 (1 / 2) ≠ -1 ∧
        detect_degradation_cusum (seriesOf words) 100 80 ≠ -1)) ∧
    (evaluate_alignment_core words =
      (if detect_degradation_rolling_avg (seriesOf words) 100 (1 / 2) ≠ -1 ∧
          detect_degradation_cusum (seriesOf words) 100 80 ≠ -1 then
        some ⟨detect_degradation_rolling_avg (seriesOf words) 100 (1 / 2),
          detect_degradation_cusum (seriesOf words) 100 80⟩
      else none)) ∧
    (apply_analysis_truncation (evaluate_alignment_core words) vtt srt =
      (if detect_degradation_rolling_avg (seriesOf words) 100 (1 / 2) ≠ -1 ∧
          detect_degradation_cusum (seriesOf words) 100 80 ≠ -1 then
        (truncate_vtt_content vtt (detect_degradation_cusum (seriesOf words) 100 80),
          truncate_srt_content srt (detect_degradation_cusum (seriesOf words) 100 80))
      else (vtt, srt))) := by
  refine ⟨?_, evaluate_core_eq words, ?_⟩
  · rw [evaluate_core_eq words]
    by_cases h : detect_degradation_rolling_avg (seriesOf words) 100 (1 / 2) ≠ -1 ∧
        detect_degradation_cusum (seriesOf words) 100 80 ≠ -1
    · rw [if_pos h]
      exact ⟨fun _ => h, fun _ => Option.some_ne_none _⟩
    · rw [if_neg h]
      exact ⟨fun hn => absurd rfl hn, fun hc => absurd hc h⟩
  · rw [evaluate_core_eq words]
    by_cases h : detect_degradation_rolling_avg (seriesOf words) 100 (1 / 2) ≠ -1 ∧
        detect_degradation_cusum (seriesOf words) 100 80 ≠ -1
    · rw [if_pos h, if_pos h]
      rfl
    · rw [if_neg h, if_neg h]
      rfl

/-! ### Invariants of the proportional split -/

/-- Python str.split always yields at least one piece. -/
theorem splitOnPred_ne_nil (p : Char → Bool) (cs : List Char) :
    splitOnPred p cs ≠ [] := by
  cases cs with
  | nil => simp [splitOnPred]
  | cons c cs =>
    simp only [splitOnPred]
    rcases splitOnPred p cs with _ | ⟨h, t⟩
    · cases p c <;> simp
    · cases p c <;> simp

/-- Joining a split at every separator restores the original string. -/
theorem joinNl_pySplitNl (cs : PyStr) : joinNl (pySplitNl cs) = cs := by
  induction cs with
  | nil => rfl
  | cons c cs ih =>
    simp only [pySplitNl, splitOnPred] at ih ⊢
    rcases hr : splitOnPred (fun c => decide (c = '\n')) cs with _ | ⟨h, t⟩
    · exact absurd hr (splitOnPred_ne_nil _ cs)
    · rw [hr] at ih
      by_cases hc : c = '\n'
      · subst hc
        rw [show decide (('\n' : Char) = '\n') = true from by simp, cond_true, ← ih]
        cases t <;> simp [joinNl, joinSep]
      · rw [show decide (c = '\n') = false from by simp [hc], cond_false, ← ih]
        cases t <;> simp [joinNl, joinSep]

/-- Chunk contents of the split loop concatenate to the processed lines. -/
theorem splitChunksGo_flatten (tpl maxT : ℚ) :
    ∀ (rest cur : List PyStr) (est : ℚ),
      ((splitChunksGo tpl maxT rest cur est).map Prod.fst).flatten = cur ++ rest := by
  intro rest
  induction rest with
  | nil =>
    intro cur est
    by_cases h : cur = []
    · simp [splitChunksGo, h]
    · simp [splitChunksGo, h]
  | cons l rest ih =>
    intro cur est
    simp only [splitChunksGo]
    by_cases h : est + tpl > maxT ∧ cur ≠ []
    · rw [if_pos h]
      simp [ih]
    · rw [if_neg h]
      simp [ih]

/-- The split loop never returns an empty chunk list when the current
chunk is non-empty. -/
theorem splitChunksGo_ne_nil (tpl maxT : ℚ) :
    ∀ (rest cur : List PyStr) (est : ℚ), cur ≠ [] →
      splitChunksGo tpl maxT rest cur est ≠ [] := by
  intro rest
  induction rest with
  | nil =>
    intro cur est h
    simp [splitChunksGo, h]
  | cons l rest ih =>
    intro cur est h
    simp only [splitChunksGo]
    by_cases hc : est + tpl > maxT ∧ cur ≠ []
    · rw [if_pos hc]
      simp
    · rw [if_neg hc]
      exact ih (cur ++ [l]) (est + tpl) (by simp)

/-- Every chunk the split loop emits is non-empty, when the carried chunk
is. -/
theorem splitChunksGo_chunks_ne_nil (tpl maxT : ℚ) :
    ∀ (rest cur : List PyStr) (est : ℚ), cur ≠ [] →
      ∀ C ∈ (splitChunksGo tpl maxT rest cur est).map Prod.fst, C ≠ [] := by
  intro rest
  induction rest with
  | nil =>
    intro cur est h C hC
    simp [splitChunksGo, h] at hC
    subst hC
    exact h
  | cons l rest ih =>
    intro cur est h C hC
    simp only [splitChunksGo] at hC
    by_cases hc : est + tpl > maxT ∧ cur ≠ []
    · rw [if_pos hc] at hC
      simp only [List.map_cons, List.mem_cons] at hC
      rcases hC with rfl | hC
      · exact h
      · exact ih [l] tpl (by simp) C hC
    · rw [if_neg hc] at hC
      exact ih (cur ++ [l]) (est + tpl) (by simp) C hC

/-- Chunks of two or more lines never exceed the cap: a line is only added
to a non-empty chunk when the grown estimate stays within max_tokens. The
estimate invariant est = |cur| * tpl is carried explicitly. -/
theorem splitChunksGo_within_cap (tpl maxT : ℚ) :
    ∀ (rest cur : List PyStr) (est : ℚ),
      est = (cur.length : ℚ) * tpl →
      (2 ≤ cur.length → (cur.length : ℚ) * tpl ≤ maxT) →
      ∀ C ∈ (splitChunksGo tpl maxT rest cur est).map Prod.fst,
        2 ≤ C.length → (C.length : ℚ) * tpl ≤ maxT := by
  intro rest
  induction rest with
  | nil =>
    intro cur est hest hgood C hC h2
    by_cases h : cur = []
    · simp [splitChunksGo, h] at hC
    · simp [splitChunksGo, h] at hC
      subst hC
      exact hgood h2
  | cons l rest ih =>
    intro cur est hest hgood C hC h2
    simp only [splitChunksGo] at hC
    by_cases hc : est + tpl > maxT ∧ cur ≠ []
    · rw [if_pos hc] at hC
      simp only [List.map_cons, List.mem_cons] at hC
      rcases hC with rfl | hC
      · exact hgood h2
      · refine ih [l] tpl (by simp) (by simp) C hC h2
    · rw [if_neg hc] at hC
      refine ih (cur ++ [l]) (est + tpl) (by simp [hest]; ring) ?_ C hC h2
      intro h2
      rcases not_and_or.mp hc with hle | hne
      · push_neg at hle
        calc ((cur ++ [l]).length : ℚ) * tpl = est + tpl := by
              simp [hest]; ring
          _ ≤ maxT := hle
      · push_neg at hne
        subst hne
        simp at h2

/-- Every chunk except the last is closed because admitting one more line
would push its estimate strictly over the cap. -/
theorem splitChunksGo_closed_full (tpl maxT : ℚ) :
    ∀ (rest cur : List PyStr) (est : ℚ),
      est = (cur.length : ℚ) * tpl →
      ∀ C ∈ ((splitChunksGo tpl maxT rest cur est).map Prod.fst).dropLast,
        maxT < ((C.length : ℚ) + 1) * tpl := by
  intro rest
  induction rest with
  | nil =>
    intro cur est hest C hC
    by_cases h : cur = []
    · simp [splitChunksGo, h] at hC
    · simp [splitChunksGo, h] at hC
  | cons l rest ih =>
    intro cur est hest C hC
    simp only [splitChunksGo] at hC
    by_cases hc : est + tpl > maxT ∧ cur ≠ []
    · rw [if_pos hc] at hC
      have hne : splitChunksGo tpl maxT rest [l] tpl ≠ [] :=
        splitChunksGo_ne_nil tpl maxT rest [l] tpl (by simp)
      rcases hmap : (splitChunksGo tpl maxT rest [l] tpl).map Prod.fst with _ | ⟨h1, t1⟩
      · exact absurd (List.map_eq_nil_iff.mp hmap) hne
      · rw [List.map_cons, hmap] at hC
        rw [List.dropLast_cons_of_ne_nil (by simp)] at hC
        simp only [List.mem_cons] at hC
        rcases hC with rfl | hC
        · have := hc.1
          rw [hest] at this
          calc maxT < (C.length : ℚ) * tpl + tpl := this
            _ = ((C.length : ℚ) + 1) * tpl := by ring
        · have := ih [l] tpl (by simp) C
          rw [hmap] at this
          exact this hC
    · rw [if_neg hc] at hC
      exact ih (cur ++ [l]) (est + tpl) (by simp [hest]; ring) C hC

/-- Joining a concatenation of two non-empty piece lists inserts one
separator between the halves. -/
theorem joinSep_append (sep : PyStr) :
    ∀ (a b : List PyStr), a ≠ [] → b ≠ [] →
      joinSep sep (a ++ b) = joinSep sep a ++ sep ++ joinSep sep b
  | [], _, ha, _ => absurd rfl ha
  | [x], b, _, hb => by
    cases b with
    | nil => exact absurd rfl hb
    | cons y t => simp [joinSep]
  | x :: x2 :: t, b, _, hb => by
    have ih := joinSep_append sep (x2 :: t) b (by simp) hb
    show x ++ sep ++ joinSep sep ((x2 :: t) ++ b) =
      (x ++ sep ++ joinSep sep (x2 :: t)) ++ sep ++ joinSep sep b
    rw [ih]
    simp [List.append_assoc]

/-- Newline-joining the per-chunk joins equals newline-joining all lines,
for non-empty chunks. -/
theorem joinNl_map_flatten :
    ∀ (parts : List (List PyStr)), (∀ C ∈ parts, C ≠ []) →
      joinNl (parts.map joinNl) = joinNl parts.flatten
  | [], _ => rfl
  | [p], _ => by simp [joinNl, joinSep]
  | p :: q :: t, h => by
    have hp : p ≠ [] := h p (by simp)
    have hq : q ≠ [] := h q (by simp)
    have ih := joinNl_map_flatten (q :: t) (fun C hC => h C (by simp [hC]))
    have hfl : (q :: t).flatten ≠ [] := by
      simp only [List.flatten_cons]
      intro hcontra
      exact hq (List.append_eq_nil.mp hcontra).1
    show joinNl p ++ ['\n'] ++ joinNl (List.map joinNl (q :: t)) =
      joinNl (p ++ (q :: t).flatten)
    rw [ih]
    show _ = joinSep ['\n'] (p ++ (q :: t).flatten)
    rw [joinSep_append ['\n'] p ((q :: t).flatten) hp hfl]
    rfl

/-- C4: in the splitting branch (total_tokens over the cap), the chunk
line lists partition the stripped content's lines in order with no line
dropped or duplicated, every chunk is non-empty (a chunk always accepts
its first line), the newline-join of the chunk contents equals the
stripped content, chunks of two or more lines have estimate
length * tokens_per_line within the cap, and every non-last chunk was
closed because one more line would push its estimate strictly over the
cap. -/
theorem C4_split_content_partition (content : PyStr) (total_tokens max_tokens : ℕ)
    (hover : max_tokens < total_tokens) :
    (((splitChunkLists content total_tokens max_tokens).map Prod.fst).flatten =
      pySplitNl (pyStrip content)) ∧
    (∀ C ∈ (splitChunkLists content total_tokens max_tokens).map Prod.fst, C ≠ []) ∧
    (joinNl ((split_content_by_tokens content total_tokens max_tokens).map Prod.fst) =
      pyStrip content) ∧
    (∀ C ∈ (splitChunkLists content total_tokens max_tokens).map Prod.fst,
      2 ≤ C.length →
        (C.length : ℚ) *
            ((total_tokens : ℚ) / (((pySplitNl (pyStrip content)).length : ℕ) : ℚ)) ≤
          (max_tokens : ℚ)) ∧
    (∀ C ∈ ((splitChunkLists content total_tokens max_tokens).map Prod.fst).dropLast,
      (max_tokens : ℚ) <
        ((C.length : ℚ) + 1) *
          ((total_tokens : ℚ) / (((pySplitNl (pyStrip content)).length : ℕ) : ℚ))) := by
  obtain ⟨l, rest, hl⟩ : ∃ l rest, pySplitNl (pyStrip content) = l :: rest := by
    rcases hsp : pySplitNl (pyStrip content) with _ | ⟨l, r⟩
    · exact absurd hsp (splitOnPred_ne_nil _ _)
    · exact ⟨l, r, rfl⟩
  have hgo : splitChunkLists content total_tokens max_tokens =
      splitChunksGo ((total_tokens : ℚ) / (((l :: rest).length : ℕ) : ℚ))
        (max_tokens : ℚ) rest [l]
        ((total_tokens : ℚ) / (((l :: rest).length : ℕ) : ℚ)) := by
    simp only [splitChunkLists, hl]
    simp only [splitChunksGo]
    rw [if_neg (by simp)]
    norm_num
  have hne : ∀ C ∈ (splitChunkLists content total_tokens max_tokens).map Prod.fst,
      C ≠ [] := by
    rw [hgo]
    exact splitChunksGo_chunks_ne_nil _ _ rest [l] _ (by simp)
  refine ⟨?_, hne, ?_, ?_, ?_⟩
  · rw [hgo, splitChunksGo_flatten, hl]
    rfl
  · simp only [split_content_by_tokens, hl]
    rw [if_neg (by simp), if_neg (by omega)]
    have hmap : List.map Prod.fst
        (List.map (fun c => (joinNl c.1, ⌊c.2⌋))
          (splitChunkLists content total_tokens max_tokens)) =
        List.map joinNl
          ((splitChunkLists content total_tokens max_tokens).map Prod.fst) := by
      simp only [List.map_map]
      exact List.map_congr_left (fun a _ => rfl)
    rw [hmap, joinNl_map_flatten _ hne, hgo, splitChunksGo_flatten]
    show joinNl (l :: rest) = pyStrip content
    rw [← hl]
    exact joinNl_pySplitNl (pyStrip content)
  · rw [hl, hgo]
    exact splitChunksGo_within_cap _ _ rest [l] _ (by simp) (by simp) 
  · rw [hl, hgo]
    exact splitChunksGo_closed_full _ _ rest [l] _ (by simp)

/-- C4 witness: five lines at 100 tokens against a 30-token cap. -/
theorem C4_witness :
    ((30 : ℕ) < 100) ∧
    ((((splitChunkLists (strOf "l1\nl2\nl3\nl4\nl5") 100 30).map Prod.fst).flatten =
      pySplitNl (pyStrip (strOf "l1\nl2\nl3\nl4\nl5"))) ∧
    (∀ C ∈ (splitChunkLists (strOf "l1\nl2\nl3\nl4\nl5") 100 30).map Prod.fst, C ≠ []) ∧
    (joinNl ((split_content_by_tokens (strOf "l1\nl2\nl3\nl4\nl5") 100 30).map Prod.fst) =
      pyStrip (strOf "l1\nl2\nl3\nl4\nl5")) ∧
    (∀ C ∈ (splitChunkLists (strOf "l1\nl2\nl3\nl4\nl5") 100 30).map Prod.fst,
      2 ≤ C.length →
        (C.length : ℚ) *
            ((100 : ℚ) / (((pySplitNl (pyStrip (strOf "l1\nl2\nl3\nl4\nl5"))).length : ℕ) : ℚ)) ≤
          (30 : ℚ)) ∧
    (∀ C ∈ ((splitChunkLists (strOf "l1\nl2\nl3\nl4\nl5") 100 30).map Prod.fst).dropLast,
      (30 : ℚ) <
        ((C.length : ℚ) + 1) *
          ((100 : ℚ) / (((pySplitNl (pyStrip (strOf "l1\nl2\nl3\nl4\nl5"))).length : ℕ) : ℚ)))) :=
  ⟨by decide, C4_split_content_partition (strOf "l1\nl2\nl3\nl4\nl5") 100 30 (by decide)⟩

/-- C5: prepare_batch_entries is the real entries (document order, then
chunk order) followed by exactly min_entries - real_count padding entries
(zero when the floor is already met), so the result never has fewer than
min_entries entries, and the i-th padding entry is the dummy entry indexed
by its absolute position, carrying record_id dummy underscore index and
the fixed trivial payload. -/
theorem C5_prepare_batch_entries_padding (files : List TranscriptionFile)
    (tc : PyStr → ℕ) (min_entries max_tokens : ℕ) :
    prepare_batch_entries files tc min_entries max_tokens =
      files.flatMap (entriesForFile tc max_tokens) ++
        (List.range' (files.flatMap (entriesForFile tc max_tokens)).length
          (min_entries - (files.flatMap (entriesForFile tc max_tokens)).length)).map
          create_dummy_entry ∧
    min_entries ≤ (prepare_batch_entries files tc min_entries max_tokens).length ∧
    (prepare_batch_entries files tc min_entries max_tokens).length =
      (files.flatMap (entriesForFile tc max_tokens)).length +
        (min_entries - (files.flatMap (entriesForFile tc max_tokens)).length) ∧
    (∀ i, i < min_entries - (files.flatMap (entriesForFile tc max_tokens)).length →
      (prepare_batch_entries files tc min_entries max_tokens).getD
          ((files.flatMap (entriesForFile tc max_tokens)).length + i)
          (create_dummy_entry 0) =
        create_dummy_entry
          ((files.flatMap (entriesForFile tc max_tokens)).length + i)) ∧
    (∀ i : ℕ, create_dummy_entry i =
      ⟨strOf "dummy_" ++ natDigits i, strOf "ok", strOf "ok", 2⟩) := by
  have hlen : (prepare_batch_entries files tc min_entries max_tokens).length =
      (files.flatMap (entriesForFile tc max_tokens)).length +
        (min_entries - (files.flatMap (entriesForFile tc max_tokens)).length) := by
    simp [prepare_batch_entries]
  refine ⟨rfl, by omega, hlen, ?_, fun i => rfl⟩
  intro i hi
  have key : ∀ (A : List BatchEntry) (n j : ℕ), j < n →
      (A ++ (List.range' A.length n).map create_dummy_entry).getD (A.length + j)
          (create_dummy_entry 0) =
        create_dummy_entry (A.length + j) := by
    intro A n j hj
    have hidx : A.length + j <
        (A ++ (List.range' A.length n).map create_dummy_entry).length := by
      simp [List.length_range']
      omega
    rw [List.getD_eq_getElem _ _ hidx, List.getElem_append_right (by omega)]
    have hj2 : A.length + j - A.length = j := by omega
    simp only [hj2, List.getElem_map, List.getElem_range']
    rw [show A.length + 1 * j = A.length + j from by omega]
  exact key (files.flatMap (entriesForFile tc max_tokens))
    (min_entries - (files.flatMap (entriesForFile tc max_tokens)).length) i hi

/-- C5 witness: the empty document list padded to two entries. -/
theorem C5_witness :
    prepare_batch_entries [] (fun _ => 0) 2 5 =
      ([] : List TranscriptionFile).flatMap (entriesForFile (fun _ => 0) 5) ++
        (List.range' (([] : List TranscriptionFile).flatMap (entriesForFile (fun _ => 0) 5)).length
          (2 - (([] : List TranscriptionFile).flatMap (entriesForFile (fun _ => 0) 5)).length)).map
          create_dummy_entry ∧
    2 ≤ (prepare_batch_entries [] (fun _ => 0) 2 5).length ∧
    (prepare_batch_entries [] (fun _ => 0) 2 5).length =
      (([] : List TranscriptionFile).flatMap (entriesForFile (fun _ => 0) 5)).length +
        (2 - (([] : List TranscriptionFile).flatMap (entriesForFile (fun _ => 0) 5)).length) ∧
    (∀ i, i < 2 - (([] : List TranscriptionFile).flatMap (entriesForFile (fun _ => 0) 5)).length →
      (prepare_batch_entries [] (fun _ => 0) 2 5).getD
          ((([] : List TranscriptionFile).flatMap (entriesForFile (fun _ => 0) 5)).length + i)
          (create_dummy_entry 0) =
        create_dummy_entry
          ((([] : List TranscriptionFile).flatMap (entriesForFile (fun _ => 0) 5)).length + i)) ∧
    (∀ i : ℕ, create_dummy_entry i =
      ⟨strOf "dummy_" ++ natDigits i, strOf "ok", strOf "ok", 2⟩) :=
  C5_prepare_batch_entries_padding [] (fun _ => 0) 2 5

/-- C9 counterexample: on an empty document list prepare_batch_entries
silently returns an ordinary batch, namely exactly min_entries dummy
padding entries, with no failure signal of any kind. -/
theorem C9_counterexample :
    prepare_batch_entries [] (fun _ => 0) 100 60000 =
      (List.range' 0 100).map create_dummy_entry ∧
    (prepare_batch_entries [] (fun _ => 0) 100 60000).length = 100 ∧
    (∀ e ∈ prepare_batch_entries [] (fun _ => 0) 100 60000,
      e.record_id.take 6 = strOf "dummy_") := by
  refine ⟨rfl, rfl, by decide⟩

/-- C9 amended: prepare_batch_entries on an empty files list returns the
batch of min_entries dummy padding entries as if the build succeeded;
the empty-input condition is not surfaced by this function. -/
theorem C9_empty_input_returns_padding (tc : PyStr → ℕ)
    (min_entries max_tokens : ℕ) :
    prepare_batch_entries [] tc min_entries max_tokens =
      (List.range' 0 min_entries).map create_dummy_entry := by
  simp [prepare_batch_entries]

/-- C2 witness: the empty word list, where no report is produced and the
artifacts pass through unchanged. -/
theorem C2_witness :
    ((evaluate_alignment_core [] ≠ none ↔
      (detect_degradation_rolling_avg (seriesOf []) 100 (1 / 2) ≠ -1 ∧
        detect_degradation_cusum (seriesOf []) 100 80 ≠ -1)) ∧
    (evaluate_alignment_core [] =
      (if detect_degradation_rolling_avg (seriesOf []) 100 (1 / 2) ≠ -1 ∧
          detect_degradation_cusum (seriesOf []) 100 80 ≠ -1 then
        some ⟨detect_degradation_rolling_avg (seriesOf []) 100 (1 / 2),
          detect_degradation_cusum (seriesOf []) 100 80⟩
      else none)) ∧
    (apply_analysis_truncation (evaluate_alignment_core []) (strOf "WEBVTT") (strOf "1") =
      (if detect_degradation_rolling_avg (seriesOf []) 100 (1 / 2) ≠ -1 ∧
          detect_degradation_cusum (seriesOf []) 100 80 ≠ -1 then
        (truncate_vtt_content (strOf "WEBVTT") (detect_degradation_cusum (seriesOf []) 100 80),
          truncate_srt_content (strOf "1") (detect_degradation_cusum (seriesOf []) 100 80))
      else (strOf "WEBVTT", strOf "1")))) :=
  C2_evaluate_alignment_conjunctive [] (strOf "WEBVTT") (strOf "1")

/-! ### Split-suffix grouping of the builder's own record ids -/

/-- Value of a decimal string extended by one digit character. -/
theorem digitsVal_append (xs : PyStr) (c : Char) :
    digitsVal (xs ++ [c]) = digitsVal xs * 10 + (c.toNat - 48) := by
  simp [digitsVal, List.foldl_append]

/-- Every rendering the fuel-driven helper produces, under sufficient fuel,
is a non-empty all-digit string whose decimal value is the number. -/
theorem natDigitsAux_spec :
    ∀ (fuel n : ℕ), n < fuel →
      natDigitsAux n fuel ≠ [] ∧ (∀ c ∈ natDigitsAux n fuel, c.isDigit) ∧
        digitsVal (natDigitsAux n fuel) = n := by
  intro fuel
  induction fuel with
  | zero => intro n hn; omega
  | succ fuel ih =>
    intro n hn
    by_cases h10 : n < 10
    · refine ⟨by simp [natDigitsAux, h10], ?_, ?_⟩
      · simp only [natDigitsAux, if_pos h10]
        intro c hc
        simp only [List.mem_singleton] at hc
        subst hc
        interval_cases n <;> decide
      · simp only [natDigitsAux, if_pos h10]
        have : digitsVal [Char.ofNat (48 + n)] = (Char.ofNat (48 + n)).toNat - 48 := by
          simp [digitsVal]
        rw [this]
        interval_cases n <;> decide
    · have hdiv : n / 10 < fuel := by
        have h1 : n / 10 < n := Nat.div_lt_self (by omega) (by omega)
        omega
      obtain ⟨ihne, ihdig, ihval⟩ := ih (n / 10) hdiv
      have hm : n % 10 < 10 := Nat.mod_lt _ (by omega)
      have hlast : (Char.ofNat (48 + n % 10)).isDigit = true ∧
          (Char.ofNat (48 + n % 10)).toNat - 48 = n % 10 := by
        set m := n % 10 with hmdef
        clear hmdef
        interval_cases m <;> exact ⟨by decide, by decide⟩
      refine ⟨by simp [natDigitsAux, h10, ihne], ?_, ?_⟩
      · simp only [natDigitsAux, if_neg h10]
        intro c hc
        rcases List.mem_append.mp hc with hc1 | hc2
        · exact ihdig c hc1
        · simp only [List.mem_singleton] at hc2
          subst hc2
          exact hlast.1
      · simp only [natDigitsAux, if_neg h10]
        rw [digitsVal_append, ihval, hlast.2]
        omega

/-- Decimal rendering round-trips through int() parsing, is non-empty and
consists of digits only. -/
theorem natDigits_spec (n : ℕ) :
    natDigits n ≠ [] ∧ (∀ c ∈ natDigits n, c.isDigit) ∧
      digitsVal (natDigits n) = n :=
  natDigitsAux_spec (n + 1) n (by omega)

/-- Taking while a predicate holds on a list that starts with an all-true
block followed by a false element stops exactly at the block. -/
theorem takeWhile_all_append (p : Char → Bool) :
    ∀ (xs : List Char) (y : Char) (ys : List Char),
      (∀ x ∈ xs, p x) → p y = false →
      (xs ++ y :: ys).takeWhile p = xs := by
  intro xs
  induction xs with
  | nil =>
    intro y ys _ hy
    simp [List.takeWhile_cons, hy]
  | cons x xs ih =>
    intro y ys hall hy
    have hx : p x = true := hall x (by simp)
    simp only [List.cons_append, List.takeWhile_cons, hx]
    rw [ih y ys (fun a ha => hall a (by simp [ha])) hy]
    simp

/-- The split-suffix regex on a stem extended with underscore and digits
recovers exactly the stem and the digit block. -/
theorem splitMatch_append (stem ds : PyStr) (hstem : stem ≠ [])
    (hnl : '\n' ∉ stem) (hds : ds ≠ []) (hdig : ∀ c ∈ ds, c.isDigit) :
    splitMatch (stem ++ '_' :: ds) = some (stem, ds) := by
  have hrev : (stem ++ '_' :: ds).reverse = ds.reverse ++ '_' :: stem.reverse := by
    rw [List.reverse_append, List.reverse_cons]
    simp
  have hstrip : stripOneTrailingNl (stem ++ '_' :: ds) = stem ++ '_' :: ds := by
    obtain ⟨d, ds2, hd⟩ : ∃ d ds2, ds.reverse = d :: ds2 := by
      rcases hr : ds.reverse with _ | ⟨d, ds2⟩
      · exact absurd (by simpa using congrArg List.reverse hr) hds
      · exact ⟨d, ds2, rfl⟩
    have hdd : d.isDigit := hdig d (List.mem_reverse.mp (by simp [hd]))
    have hlast : (stem ++ '_' :: ds).getLast? = some d := by
      rw [← List.head?_reverse, hrev, hd]
      rfl
    simp only [stripOneTrailingNl, hlast]
    rw [if_neg]
    intro hcontra
    have hdn : d = '\n' := by injection hcontra
    subst hdn
    exact absurd hdd (by decide)
  have htake : (ds.reverse ++ '_' :: stem.reverse).takeWhile Char.isDigit =
      ds.reverse := by
    exact takeWhile_all_append Char.isDigit ds.reverse '_' stem.reverse
      (fun x hx => hdig x (List.mem_reverse.mp hx)) (by decide)
  simp only [splitMatch, hstrip, hrev, htake]
  rw [if_neg (by simp [hds])]
  rw [List.drop_left]
  show (if ('_' : Char) = '_' then
      if (List.reverse stem).reverse = [] ∨ '\n' ∈ (List.reverse stem).reverse then none
      else some ((List.reverse stem).reverse, (List.reverse ds).reverse)
    else none) = some (stem, ds)
  rw [if_pos rfl]
  simp only [List.reverse_reverse]
  rw [if_neg (by simp [hstem, hnl])]

/-- Folding the defaultdict update over records that all share one key,
starting from a singleton dict for that key, appends their payloads in
order. -/
theorem foldl_upsert_same_key (k : PyStr) :
    ∀ (records : List BatchOutputRecord),
      (∀ r ∈ records, (groupKeyVal r).1 = k) →
      ∀ acc : List (ℕ × PyStr),
        List.foldl (fun gs r => upsertGroup gs (groupKeyVal r).1 (groupKeyVal r).2)
          [(k, acc)] records =
          [(k, acc ++ records.map (fun r => (groupKeyVal r).2))] := by
  intro records
  induction records with
  | nil => intro _ acc; simp
  | cons r rs ih =>
    intro hall acc
    have hk : (groupKeyVal r).1 = k := hall r (by simp)
    simp only [List.foldl_cons, upsertGroup, hk, if_true, eq_self_iff_true]
    rw [ih (fun x hx => hall x (by simp [hx])) (acc ++ [(groupKeyVal r).2])]
    simp

/-- Grouping a non-empty record list that maps entirely to one key yields
that single key with the payloads in order. -/
theorem foldl_upsert_from_nil (k : PyStr) (r : BatchOutputRecord)
    (rs : List BatchOutputRecord)
    (hall : ∀ x ∈ r :: rs, (groupKeyVal x).1 = k) :
    List.foldl (fun gs x => upsertGroup gs (groupKeyVal x).1 (groupKeyVal x).2)
      [] (r :: rs) =
      [(k, (r :: rs).map (fun x => (groupKeyVal x).2))] := by
  have hk : (groupKeyVal r).1 = k := hall r (by simp)
  simp only [List.foldl_cons, upsertGroup, hk]
  rw [foldl_upsert_same_key k rs (fun x hx => hall x (by simp [hx])) [(groupKeyVal r).2]]
  simp

/-- Indices produced by enumFrom start at the given base. -/
theorem enumFrom_fst_le {α : Type} :
    ∀ (m : ℕ) (xs : List α) (p : ℕ × α), p ∈ xs.enumFrom m → m ≤ p.1 := by
  intro m xs
  induction xs generalizing m with
  | nil => intro p hp; simp [List.enumFrom] at hp
  | cons x xs ih =>
    intro p hp
    rw [List.enumFrom_cons] at hp
    rcases List.mem_cons.mp hp with rfl | hp2
    · exact Nat.le_refl m
    · have := ih (m + 1) p hp2
      omega

/-- The keyed chunk list assembled from an enumeration is already sorted
by its numeric key. -/
theorem sorted_enum_chunkLe :
    ∀ (m : ℕ) (xs : List (PyStr × ℤ)),
      List.Sorted chunkLe ((xs.enumFrom m).map (fun ic => (ic.1, ic.2.1))) := by
  intro m xs
  induction xs generalizing m with
  | nil => simp
  | cons x xs ih =>
    rw [List.enumFrom_cons]
    simp only [List.map_cons]
    refine List.sorted_cons.mpr ⟨?_, ih (m + 1)⟩
    intro b hb
    rcases List.mem_map.mp hb with ⟨p, hp, rfl⟩
    have := enumFrom_fst_le (m + 1) xs p hp
    show m ≤ p.1
    omega

/-- Core of the split/merge inverse: grouping the records built from a
non-empty chunk list with the builder's id scheme returns the single stem
mapped to the ordered newline-join of the chunk texts, provided a bare
(single-chunk) stem does not itself match the split-suffix pattern. -/
theorem group_split_records_chunks (stem : PyStr) (chunks : List (PyStr × ℤ))
    (hch : chunks ≠ []) (hstem : stem ≠ []) (hnl : '\n' ∉ stem)
    (hsingle : chunks.length = 1 → splitMatch stem = none) :
    group_split_records ((chunks.enumFrom 1).map (fun ic =>
        ⟨if chunks.length = 1 then stem else stem ++ '_' :: natDigits ic.1, ic.2.1⟩)) =
      [(stem, joinNl (chunks.map Prod.fst))] := by
  by_cases h1 : chunks.length = 1
  · obtain ⟨c, hc⟩ : ∃ c, chunks = [c] := by
      rcases chunks with _ | ⟨c, rest⟩
      · simp at h1
      · rcases rest with _ | ⟨c2, rest2⟩
        · exact ⟨c, rfl⟩
        · simp at h1
    subst hc
    have hsm : splitMatch stem = none := hsingle rfl
    simp only [List.enumFrom_cons, List.enumFrom, List.map_cons, List.map_nil, if_pos h1]
    simp only [group_split_records, List.foldl_cons, List.foldl_nil]
    have hkv : groupKeyVal ⟨stem, c.1⟩ = (stem, (0, c.1)) := by
      simp [groupKeyVal, hsm]
    simp only [hkv, upsertGroup]
    simp [joinNl, joinSep, List.insertionSort]
  · have hEnum : ∀ ic ∈ chunks.enumFrom 1,
        groupKeyVal ⟨stem ++ '_' :: natDigits ic.1, ic.2.1⟩ =
          (stem, (ic.1, ic.2.1)) := by
      intro ic _
      obtain ⟨hne, hdig, hval⟩ := natDigits_spec ic.1
      simp [groupKeyVal, splitMatch_append stem (natDigits ic.1) hstem hnl hne hdig, hval]
    have hrecs : (chunks.enumFrom 1).map (fun ic =>
        (⟨if chunks.length = 1 then stem else stem ++ '_' :: natDigits ic.1, ic.2.1⟩ :
          BatchOutputRecord)) =
        (chunks.enumFrom 1).map (fun ic =>
          ⟨stem ++ '_' :: natDigits ic.1, ic.2.1⟩) := by
      exact List.map_congr_left (fun a _ => by rw [if_neg h1])
    rw [hrecs]
    obtain ⟨e, es, he⟩ : ∃ e es, chunks.enumFrom 1 = e :: es := by
      rcases hee : chunks.enumFrom 1 with _ | ⟨e, es⟩
      · rcases chunks with _ | ⟨c, rest⟩
        · exact absurd rfl hch
        · rw [List.enumFrom_cons] at hee
          simp at hee
      · exact ⟨e, es, rfl⟩
    have hall : ∀ r ∈ (chunks.enumFrom 1).map (fun ic =>
        (⟨stem ++ '_' :: natDigits ic.1, ic.2.1⟩ : BatchOutputRecord)),
        (groupKeyVal r).1 = stem := by
      intro r hr
      rcases List.mem_map.mp hr with ⟨ic, hic, rfl⟩
      rw [hEnum ic hic]
    have hvals : ((chunks.enumFrom 1).map (fun ic =>
        (⟨stem ++ '_' :: natDigits ic.1, ic.2.1⟩ : BatchOutputRecord))).map
          (fun r => (groupKeyVal r).2) =
        (chunks.enumFrom 1).map (fun ic => (ic.1, ic.2.1)) := by
      rw [List.map_map]
      exact List.map_congr_left (fun ic hic => by
        show (groupKeyVal ⟨stem ++ '_' :: natDigits ic.1, ic.2.1⟩).2 = (ic.1, ic.2.1)
        rw [hEnum ic hic])
    simp only [group_split_records]
    rw [he] at hall ⊢
    rcases hmap : (e :: es).map (fun ic =>
        (⟨stem ++ '_' :: natDigits ic.1, ic.2.1⟩ : BatchOutputRecord)) with _ | ⟨r, rs⟩
    · simp at hmap
    · rw [hmap] at hall
      have hfold := foldl_upsert_from_nil stem r rs hall
      rw [hmap, hfold]
      have hvals2 : (r :: rs).map (fun x => (groupKeyVal x).2) =
          (chunks.enumFrom 1).map (fun ic => (ic.1, ic.2.1)) := by
        rw [← hmap, ← he]
        exact hvals
      rw [List.map_cons]
      simp only [List.map_nil]
      rw [hvals2]
      have hsorted := sorted_enum_chunkLe 1 chunks
      rw [List.Sorted.insertionSort_eq hsorted]
      have hsnd : ((chunks.enumFrom 1).map (fun ic => (ic.1, ic.2.1))).map Prod.snd =
          chunks.map Prod.fst := by
        rw [List.map_map]
        have : (Prod.snd ∘ fun ic : ℕ × (PyStr × ℤ) => (ic.1, ic.2.1)) =
            (Prod.fst ∘ Prod.snd) := rfl
        rw [this, ← List.map_map, List.enumFrom_map_snd]
      rw [hsnd]

/-- The splitter always produces at least one chunk. -/
theorem split_content_ne_nil (content : PyStr) (total_tokens max_tokens : ℕ) :
    split_content_by_tokens content total_tokens max_tokens ≠ [] := by
  obtain ⟨l, rest, hl⟩ : ∃ l rest, pySplitNl (pyStrip content) = l :: rest := by
    rcases hsp : pySplitNl (pyStrip content) with _ | ⟨l, r⟩
    · exact absurd hsp (splitOnPred_ne_nil _ _)
    · exact ⟨l, r, rfl⟩
  simp only [split_content_by_tokens, hl]
  by_cases h0 : (l :: rest : List PyStr).length = 0
  · simp at h0
  · rw [if_neg h0]
    by_cases hle : total_tokens ≤ max_tokens
    · rw [if_pos hle]
      simp
    · rw [if_neg hle]
      have hgo : splitChunkLists content total_tokens max_tokens ≠ [] := by
        simp only [splitChunkLists, hl]
        simp only [splitChunksGo]
        rw [if_neg (by simp)]
        exact splitChunksGo_ne_nil _ _ rest ([] ++ [l]) _ (by simp)
      simp [hgo]

/-- C3 amended: for every document, feeding the builder's records for its
chunks into group_split_records yields exactly the one entry keyed by the
document stem with the ordered newline-join of the chunk texts — provided
the stem is non-empty and newline-free and, in the single-chunk case,
does not itself match the split-suffix pattern underscore-digits. -/
theorem C3_split_merge_inverse_amended (f : TranscriptionFile) (tc : PyStr → ℕ)
    (max_tokens : ℕ) (hstem : f.stem ≠ []) (hnl : '\n' ∉ f.stem)
    (hsingle : (split_content_by_tokens f.content (tc f.content) max_tokens).length = 1 →
      splitMatch f.stem = none) :
    group_split_records (recordsForFile tc max_tokens f) =
      [(f.stem, joinNl ((split_content_by_tokens f.content (tc f.content) max_tokens).map
        Prod.fst))] := by
  have hrec : recordsForFile tc max_tokens f =
      ((split_content_by_tokens f.content (tc f.content) max_tokens).enumFrom 1).map
        (fun ic =>
          ⟨if (split_content_by_tokens f.content (tc f.content) max_tokens).length = 1
            then f.stem else f.stem ++ '_' :: natDigits ic.1, ic.2.1⟩) := by
    simp only [recordsForFile, entriesForFile, List.map_map]
    exact List.map_congr_left (fun a _ => rfl)
  rw [hrec]
  exact group_split_records_chunks f.stem _ (split_content_ne_nil _ _ _) hstem hnl hsingle

/-- C3 counterexample: a single-chunk document whose stem a_2 naturally
ends in underscore-digits is regrouped under the key a, not its own stem,
so the merged mapping is not keyed by the original document stem. -/
theorem C3_counterexample :
    group_split_records (recordsForFile (fun _ => 1) 60000
        ⟨strOf "a_2", strOf "x", strOf "s", 1, 1⟩) =
      [(strOf "a", strOf "x")] ∧
    (strOf "a" : PyStr) ≠ strOf "a_2" := by
  constructor
  · decide
  · decide

/-- C3 witness: a single-chunk document with an ordinary stem is regrouped
under its own stem. -/
theorem C3_witness :
    group_split_records (recordsForFile (fun _ => 1) 60000
        ⟨strOf "doc", strOf "x", strOf "s", 1, 1⟩) =
      [(strOf "doc",
        joinNl ((split_content_by_tokens (strOf "x") 1 60000).map Prod.fst))] :=
  C3_split_merge_inverse_amended ⟨strOf "doc", strOf "x", strOf "s", 1, 1⟩
    (fun _ => 1) 60000 (by decide) (by decide) (fun _ => by decide)

/-- C8 amended: when the .time read succeeds with non-empty content and
all uploads succeed, process_record returns true and performs exactly: the
corrected text as stem.txt; then, if injection produced a non-empty
result, the VTT built from that injected result (and no no_timing
artifact); otherwise — injection returned none, or the empty string — the
no_timing artifact with the corrected text and the VTT built from the
original timed content. -/
theorem C8_process_record_artifacts (s3 : S3Client)
    (stem fixed_text transcription_bucket output_bucket timed_content : PyStr)
    (hget : s3.contents transcription_bucket (stem ++ strOf ".time") = some timed_content)
    (hne : timed_content ≠ [])
    (hput : ∀ b k, s3.putOk b k = true) :
    (process_record s3 stem fixed_text transcription_bucket output_bucket).1 = true ∧
    (process_record s3 stem fixed_text transcription_bucket output_bucket).2 =
      (match inject_timestamps fixed_text timed_content with
       | some inj =>
         if inj = [] then
           [(output_bucket, stem ++ strOf ".txt", fixed_text),
            (output_bucket, stem ++ strOf ".no_timing.txt", fixed_text),
            (output_bucket, stem ++ strOf ".vtt", convert_to_vtt timed_content)]
         else
           [(output_bucket, stem ++ strOf ".txt", fixed_text),
            (output_bucket, stem ++ strOf ".vtt", convert_to_vtt inj)]
       | none =>
         [(output_bucket, stem ++ strOf ".txt", fixed_text),
          (output_bucket, stem ++ strOf ".no_timing.txt", fixed_text),
          (output_bucket, stem ++ strOf ".vtt", convert_to_vtt timed_content)]) ∧
    (∀ inj, inject_timestamps fixed_text timed_content = some inj → inj ≠ [] →
      ∀ p ∈ (process_record s3 stem fixed_text transcription_bucket output_bucket).2,
        p.2.1 ≠ stem ++ strOf ".no_timing.txt") := by
  have hpr : process_record s3 stem fixed_text transcription_bucket output_bucket =
      (true,
        match inject_timestamps fixed_text timed_content with
        | some inj =>
          if inj = [] then
            [(output_bucket, stem ++ strOf ".txt", fixed_text),
             (output_bucket, stem ++ strOf ".no_timing.txt", fixed_text),
             (output_bucket, stem ++ strOf ".vtt", convert_to_vtt timed_content)]
          else
            [(output_bucket, stem ++ strOf ".txt", fixed_text),
             (output_bucket, stem ++ strOf ".vtt", convert_to_vtt inj)]
        | none =>
          [(output_bucket, stem ++ strOf ".txt", fixed_text),
           (output_bucket, stem ++ strOf ".no_timing.txt", fixed_text),
           (output_bucket, stem ++ strOf ".vtt", convert_to_vtt timed_content)]) := by
    rcases hinj : inject_timestamps fixed_text timed_content with _ | inj
    · simp [process_record, hget, hne, hput, hinj]
    · by_cases hinj2 : inj = []
      · simp [process_record, hget, hne, hput, hinj, hinj2]
      · simp [process_record, hget, hne, hput, hinj, hinj2]
  refine ⟨by rw [hpr], by rw [hpr], ?_⟩
  intro inj hinj hinjne p hp
  rw [hpr] at hp
  simp only at hp
  rw [hinj] at hp
  simp [hinjne] at hp
  rcases hp with rfl | rfl
  · intro hcontra
    exact absurd (List.append_cancel_left hcontra) (by decide)
  · intro hcontra
    exact absurd (List.append_cancel_left hcontra) (by decide)

/-- C8 counterexample: with a whitespace-only .time object, injection
succeeds with a non-null (empty) result, yet process_record still writes
the no_timing artifact, because the code tests the injection result for
truthiness rather than for null. -/
theorem C8_counterexample :
    inject_timestamps [] (strOf " ") = some [] ∧
    (strOf "ob", strOf "s" ++ strOf ".no_timing.txt", ([] : PyStr)) ∈
      (process_record
        ⟨fun b k => if b = strOf "tb" ∧ k = strOf "s.time" then some (strOf " ") else none,
          fun _ _ => true⟩
        (strOf "s") [] (strOf "tb") (strOf "ob")).2 := by
  constructor
  · decide
  · decide

/-- C8 witness: a one-line fixed text with a matching one-line .time
object, where injection succeeds and only the txt and vtt artifacts are
written. -/
theorem C8_witness :
    ((process_record
        ⟨fun b k => if b = strOf "tb" ∧ k = strOf "s.time"
            then some (strOf "[1] 00:00:00.000 - 00:00:02.000: hi") else none,
          fun _ _ => true⟩
        (strOf "s") (strOf "HI") (strOf "tb") (strOf "ob")).1 = true ∧
    (process_record
        ⟨fun b k => if b = strOf "tb" ∧ k = strOf "s.time"
            then some (strOf "[1] 00:00:00.000 - 00:00:02.000: hi") else none,
          fun _ _ => true⟩
        (strOf "s") (strOf "HI") (strOf "tb") (strOf "ob")).2 =
      (match inject_timestamps (strOf "HI") (strOf "[1] 00:00:00.000 - 00:00:02.000: hi") with
       | some inj =>
         if inj = [] then
           [(strOf "ob", strOf "s" ++ strOf ".txt", strOf "HI"),
            (strOf "ob", strOf "s" ++ strOf ".no_timing.txt", strOf "HI"),
            (strOf "ob", strOf "s" ++ strOf ".vtt",
              convert_to_vtt (strOf "[1] 00:00:00.000 - 00:00:02.000: hi"))]
         else
           [(strOf "ob", strOf "s" ++ strOf ".txt", strOf "HI"),
            (strOf "ob", strOf "s" ++ strOf ".vtt", convert_to_vtt inj)]
       | none =>
         [(strOf "ob", strOf "s" ++ strOf ".txt", strOf "HI"),
          (strOf "ob", strOf "s" ++ strOf ".no_timing.txt", strOf "HI"),
          (strOf "ob", strOf "s" ++ strOf ".vtt",
            convert_to_vtt (strOf "[1] 00:00:00.000 - 00:00:02.000: hi"))]) ∧
    (∀ inj, inject_timestamps (strOf "HI") (strOf "[1] 00:00:00.000 - 00:00:02.000: hi") =
        some inj → inj ≠ [] →
      ∀ p ∈ (process_record
          ⟨fun b k => if b = strOf "tb" ∧ k = strOf "s.time"
              then some (strOf "[1] 00:00:00.000 - 00:00:02.000: hi") else none,
            fun _ _ => true⟩
          (strOf "s") (strOf "HI") (strOf "tb") (strOf "ob")).2,
        p.2.1 ≠ strOf "s" ++ strOf ".no_timing.txt")) :=
  C8_process_record_artifacts
    ⟨fun b k => if b = strOf "tb" ∧ k = strOf "s.time"
        then some (strOf "[1] 00:00:00.000 - 00:00:02.000: hi") else none,
      fun _ _ => true⟩
    (strOf "s") (strOf "HI") (strOf "tb") (strOf "ob")
    (strOf "[1] 00:00:00.000 - 00:00:02.000: hi")
    (by decide) (by decide) (fun b k => rfl)

/-- Mean of a non-empty constant list is the constant. -/
theorem mean_replicate (c : ℚ) (k : ℕ) (h : 0 < k) : mean (List.replicate k c) = c := by
  simp only [mean, List.sum_replicate, List.length_replicate, nsmul_eq_mul]
  field_simp

/-- Slices of a constant list are constant. -/
theorem pySlice_replicate (c : ℚ) (n a b : ℕ) :
    pySlice (List.replicate n c) a b = List.replicate (min (b - a) (n - a)) c := by
  simp [pySlice, List.drop_replicate, List.take_replicate]

/-- Constant-list lookup below the length is the constant. -/
theorem getD_replicate (c d : ℚ) (n k : ℕ) (hk : k < n) :
    (List.replicate n c).getD k d = c := by
  rw [List.getD_eq_getElem _ _ (by simp [hk]), List.getElem_replicate]

/-- Moving averages of a constant series are the constant. -/
theorem compute_moving_average_replicate (c : ℚ) (n w : ℕ) (hw : 0 < w) :
    compute_moving_average (List.replicate n c) w = List.replicate n c := by
  simp only [compute_moving_average, List.length_replicate]
  have hcongr : ∀ i ∈ List.range n,
      mean (pySlice (List.replicate n c) (i + 1 - w) (i + 1)) = c := by
    intro i hi
    have hi2 : i < n := List.mem_range.mp hi
    rw [pySlice_replicate]
    apply mean_replicate
    omega
  rw [List.map_congr_left hcongr]
  have hconst : (fun _ : ℕ => c) = Function.const ℕ c := rfl
  rw [hconst, List.map_const, List.length_range]

/-- The rolling-average detector reports nothing on a constant positive
series. -/
theorem detect_rolling_replicate (c : ℚ) (hc : 0 < c) :
    detect_degradation_rolling_avg (List.replicate 300 c) 100 (1 / 2) = -1 := by
  simp only [detect_degradation_rolling_avg, List.length_replicate]
  rw [if_neg (by omega)]
  rw [compute_moving_average_replicate c 300 100 (by omega)]
  rw [pySlice_replicate, mean_replicate c _ (by omega)]
  simp only [List.length_replicate]
  rcases findIdxFrom_spec
      (fun i => decide ((List.replicate 300 c).getD i 0 < c * (1 / 2)))
      100 (300 - 100) with ⟨heq, _⟩ | ⟨k, _, h1, h2, h3, _⟩
  · exact heq
  · exfalso
    have hget : (List.replicate 300 c).getD k 0 = c := getD_replicate c 0 300 k (by omega)
    have := of_decide_eq_true h3
    rw [hget] at this
    nlinarith

/-- A CUSUM stream over all-zero increments stays at zero. -/
theorem cusumStream_zero (g : ℕ → ℚ) (start : ℕ) :
    ∀ k, (∀ j, j ≤ k → g (start + j) = 0) → cusumStream g start 0 k = 0
  | 0, h => by
    have h0 := h 0 (by omega)
    simp only [Nat.add_zero] at h0
    simp [cusumStream, h0]
  | k + 1, h => by
    have ih := cusumStream_zero g start k (fun j hj => h j (by omega))
    have hk1 := h (k + 1) (by omega)
    show min 0 (cusumStream g start 0 k + g (start + k + 1)) = 0
    rw [ih, show start + k + 1 = start + (k + 1) from by omega, hk1]
    simp

/-- The CUSUM detector reports nothing on a constant series. -/
theorem detect_cusum_replicate (c : ℚ) :
    detect_degradation_cusum (List.replicate 300 c) 100 80 = -1 := by
  simp only [detect_degradation_cusum, List.length_replicate]
  rw [if_neg (by omega)]
  rw [compute_moving_average_replicate c 300 100 (by omega)]
  rw [pySlice_replicate, mean_replicate c _ (by omega)]
  simp only [List.length_replicate]
  rcases cusumGo_spec (fun i => (List.replicate 300 c).getD i 0 - c) 80 100 0
      (300 - 100) with ⟨heq, _⟩ | ⟨k, hk, _, hex, _⟩
  · exact heq
  · exfalso
    have hz : cusumStream (fun i => (List.replicate 300 c).getD i 0 - c) 100 0 k = 0 := by
      apply cusumStream_zero
      intro j hj
      have hjlt : 100 + j < 300 := by omega
      show (List.replicate 300 c).getD (100 + j) 0 - c = 0
      rw [getD_replicate c 0 300 (100 + j) hjlt]
      ring
    rw [hz] at hex
    norm_num at hex

/-- Mapping a filter over a constant list that hits on its element
replicates the image. -/
theorem filterMap_replicate {α β : Type} (f : α → Option β) (a : α) (b : β)
    (hf : f a = some b) :
    ∀ n, List.filterMap f (List.replicate n a) = List.replicate n b
  | 0 => rfl
  | n + 1 => by
    simp only [List.replicate_succ, List.filterMap_cons, hf]
    rw [filterMap_replicate f a b hf n]

/-- The analysed series of a constant word list is the constant
probability series. -/
theorem seriesOf_replicate (n : ℕ) (w : StableWord) (q : ℚ)
    (hq : w.probability = some q) :
    seriesOf (List.replicate n w) = List.replicate n q := by
  have hsorted : List.Sorted wordLe (List.replicate n w) :=
    List.pairwise_replicate.mpr (Or.inr (le_refl (wordKey w)))
  simp only [seriesOf]
  rw [List.Sorted.insertionSort_eq hsorted]
  exact filterMap_replicate _ _ _ hq n

/-- C10: evaluate_alignment always returns a two-field report or none and
never propagates an exception — every failed read or analysis maps to
none — and that none is indistinguishable from the clean no-degradation
outcome on a genuinely analysed 300-point series. -/
theorem C10_evaluate_alignment_total :
    (∀ e : PyStr, evaluate_alignment (Except.error e) = none) ∧
    (∀ input : Except PyStr (List StableWord),
      evaluate_alignment input = none ∨
        ∃ r : DegradationReport, evaluate_alignment input = some r) ∧
    (evaluate_alignment (Except.ok (List.replicate 300
        (⟨strOf "w", some 0, some 0, some (9 / 10)⟩ : StableWord))) = none ∧
      (seriesOf (List.replicate 300
        (⟨strOf "w", some 0, some 0, some (9 / 10)⟩ : StableWord))).length = 300 ∧
      ∀ e : PyStr, evaluate_alignment (Except.error e) =
        evaluate_alignment (Except.ok (List.replicate 300
          (⟨strOf "w", some 0, some 0, some (9 / 10)⟩ : StableWord)))) := by
  have hseries : seriesOf (List.replicate 300
      (⟨strOf "w", some 0, some 0, some (9 / 10)⟩ : StableWord)) =
      List.replicate 300 ((9 : ℚ) / 10) := seriesOf_replicate 300 _ _ rfl
  have hok : evaluate_alignment_core (List.replicate 300
      (⟨strOf "w", some 0, some 0, some (9 / 10)⟩ : StableWord)) = none := by
    rw [evaluate_core_eq, if_neg]
    intro hc
    rw [hseries] at hc
    exact hc.1 (detect_rolling_replicate ((9 : ℚ) / 10) (by norm_num))
  refine ⟨fun e => rfl, ?_, hok, ?_, fun e => ?_⟩
  · intro input
    rcases input with e | ws
    · left; rfl
    · rcases h : evaluate_alignment_core ws with _ | r
      · left; exact h
      · right; exact ⟨r, h⟩
  · rw [hseries, List.length_replicate]
  · show (none : Option DegradationReport) = _
    rw [show evaluate_alignment (Except.ok (List.replicate 300
      (⟨strOf "w", some 0, some 0, some (9 / 10)⟩ : StableWord))) = none from hok]
